import Mathlib

/-!
# Verification of the delaunaytests fixture loader

This file gives a shallow embedding of the two near-identical loader modules
of the repository (`src/loader.mjs` and the unnamed second copy) and proves
properties of the embedded definitions.

Modelling conventions:

* JavaScript numbers are modelled exactly by rationals `ℚ`; the IEEE special
  values that the code can actually produce (`NaN`, `Infinity`, `-Infinity`)
  are represented explicitly by the type `JVal`, with the arithmetic and
  `Math.min`/`Math.max` special-value rules spelled out case by case.
  Coordinates coming from JSON fixture files are always finite, so point
  lists are `List (ℚ × ℚ)`; `pointsExtent` and `scalePoints` can produce
  special values and therefore return `JVal`s.
* JavaScript strings are modelled as `List Char` where substring search
  matters (`name` fields, `findTest`), and as `String` elsewhere.
* `null`/absent JSON fields are modelled by `Option`; a JavaScript exception
  is modelled by `Except JsError`.
* The filesystem walk (`collectFiles`, `fs.readFileSync`) and the path
  arithmetic deriving `name` are I/O and are abstracted: `loadFile` takes the
  parsed JSON content (`none` standing for a file whose text `JSON.parse`
  rejects) together with the already-derived `name`, and `loadTests` takes
  the list of records built from the walked files.
-/

/-- A JavaScript number value as produced by the loader's arithmetic:
either an exact finite value (JSON numbers, modelled as rationals) or one of
the IEEE special values `NaN`, `Infinity`, `-Infinity`. -/
inductive JVal where
  | nan : JVal
  | inf : JVal
  | ninf : JVal
  | fin : ℚ → JVal
deriving DecidableEq, Repr

/-- `Math.min` on JavaScript numbers: `NaN` is absorbing, otherwise the
smaller argument (with `-Infinity` smallest and `Infinity` largest). -/
def jmin : JVal → JVal → JVal
  | .nan, _ => .nan
  | _, .nan => .nan
  | .ninf, _ => .ninf
  | _, .ninf => .ninf
  | .inf, b => b
  | a, .inf => a
  | .fin a, .fin b => .fin (min a b)

/-- `Math.max` on JavaScript numbers. -/
def jmax : JVal → JVal → JVal
  | .nan, _ => .nan
  | _, .nan => .nan
  | .inf, _ => .inf
  | _, .inf => .inf
  | .ninf, b => b
  | a, .ninf => a
  | .fin a, .fin b => .fin (max a b)

/-- JavaScript subtraction `a - b` with IEEE special-value rules. -/
def jsub : JVal → JVal → JVal
  | .nan, _ => .nan
  | _, .nan => .nan
  | .inf, .inf => .nan
  | .ninf, .ninf => .nan
  | .inf, _ => .inf
  | .ninf, _ => .ninf
  | .fin _, .inf => .ninf
  | .fin _, .ninf => .inf
  | .fin a, .fin b => .fin (a - b)

/-- JavaScript addition `a + b` with IEEE special-value rules. -/
def jadd : JVal → JVal → JVal
  | .nan, _ => .nan
  | _, .nan => .nan
  | .inf, .ninf => .nan
  | .ninf, .inf => .nan
  | .inf, _ => .inf
  | _, .inf => .inf
  | .ninf, _ => .ninf
  | _, .ninf => .ninf
  | .fin a, .fin b => .fin (a + b)

/-- JavaScript multiplication `a * b` with IEEE special-value rules
(`0 * Infinity = NaN`). -/
def jmul : JVal → JVal → JVal
  | .nan, _ => .nan
  | _, .nan => .nan
  | .inf, .inf => .inf
  | .inf, .ninf => .ninf
  | .ninf, .inf => .ninf
  | .ninf, .ninf => .inf
  | .inf, .fin b => if b = 0 then .nan else if 0 < b then .inf else .ninf
  | .fin a, .inf => if a = 0 then .nan else if 0 < a then .inf else .ninf
  | .ninf, .fin b => if b = 0 then .nan else if 0 < b then .ninf else .inf
  | .fin a, .ninf => if a = 0 then .nan else if 0 < a then .ninf else .inf
  | .fin a, .fin b => .fin (a * b)

/-- JavaScript division `a / b` with IEEE special-value rules
(division of a nonzero finite value by zero gives a signed infinity,
`0 / 0 = NaN`; rationals have no negative zero, so the zero divisor is
treated as `+0`). -/
def jdiv : JVal → JVal → JVal
  | .nan, _ => .nan
  | _, .nan => .nan
  | .inf, .inf => .nan
  | .inf, .ninf => .nan
  | .ninf, .inf => .nan
  | .ninf, .ninf => .nan
  | .inf, .fin b => if b < 0 then .ninf else .inf
  | .ninf, .fin b => if b < 0 then .inf else .ninf
  | .fin _, .inf => .fin 0
  | .fin _, .ninf => .fin 0
  | .fin a, .fin b =>
      if b = 0 then (if a = 0 then .nan else if 0 < a then .inf else .ninf)
      else .fin (a / b)

/-- The extent object `{minX, minY, maxX, maxY}` returned by `pointsExtent`.
The fields are `JVal`s because the empty-input sentinel is
`{minX: Infinity, minY: Infinity, maxX: -Infinity, maxY: -Infinity}`. -/
structure Extent where
  minX : JVal
  minY : JVal
  maxX : JVal
  maxY : JVal
deriving DecidableEq, Repr

/-- The raw JSON content of one fixture file after `JSON.parse`, restricted
to the shape the loader destructures: the fields `points`, `edges`,
`source`, `error`, each possibly absent (`undefined`/`null`). -/
structure RawFixture where
  points : Option (List (ℚ × ℚ))
  edges : Option (List (ℕ × ℕ))
  source : Option String
  error : Option String
deriving DecidableEq, Repr

/-- A JavaScript exception raised while loading one fixture:
`syntaxError` models `JSON.parse` throwing on malformed text, `typeError`
models the `TypeError` raised by iterating `undefined` (which is what
actually happens when the `points` field is missing). -/
inductive JsError where
  | syntaxError : JsError
  | typeError : JsError
deriving DecidableEq, Repr

/-- A constructed Test Record (the fields assigned by the `TestFile` /
`Test` class constructors). `edges` is an `Option` because the constructor
copies the raw `edges` field without checking it, so it can be
`undefined`. -/
structure TestFile where
  points : List (ℚ × ℚ)
  edges : Option (List (ℕ × ℕ))
  source : Option String
  error : Option String
  name : List Char
  extent : Extent
deriving DecidableEq, Repr

namespace Loader

/-- The loop of `dedupePoints` in `src/loader.mjs`: walk the list keeping a
set of already-seen coordinate keys. The JS key is the string
`'' + x + ',' + y`; on exact rationals two points collide on that key
exactly when both coordinates are equal, so the set of keys is modelled as
the list of seen coordinate pairs. -/
def dedupeGo : List (ℚ × ℚ) → List (ℚ × ℚ) → List (ℚ × ℚ)
  | [], _ => []
  | p :: rest, seen =>
      if p ∈ seen then dedupeGo rest seen else p :: dedupeGo rest (p :: seen)

/-- `dedupePoints` from `src/loader.mjs`. -/
def dedupePoints (points : List (ℚ × ℚ)) : List (ℚ × ℚ) :=
  dedupeGo points []

/-- One iteration of the `pointsExtent` loop in `src/loader.mjs`. -/
def extentStep (e : Extent) (p : ℚ × ℚ) : Extent :=
  ⟨jmin e.minX (.fin p.1), jmin e.minY (.fin p.2),
   jmax e.maxX (.fin p.1), jmax e.maxY (.fin p.2)⟩

/-- `pointsExtent` from `src/loader.mjs`: fold the min/max update over the
points starting from the inverted-infinity sentinel. -/
def pointsExtent (points : List (ℚ × ℚ)) : Extent :=
  points.foldl extentStep ⟨.inf, .inf, .ninf, .ninf⟩

/-- `scalePoints` from `src/loader.mjs`. The two optional offset parameters
are made explicit (the JS defaults are `offX = 0, offY = offX`). -/
def scalePoints (points : List (ℚ × ℚ)) (width height offX offY : ℚ) :
    List (JVal × JVal) :=
  let bnd := pointsExtent points
  let curWidth := jsub bnd.maxX bnd.minX
  let curHeight := jsub bnd.maxY bnd.minY
  let scaleX := jdiv (.fin width) curWidth
  let scaleY := jdiv (.fin height) curHeight
  let scale := jmin scaleX scaleY
  points.map (fun p =>
    (jadd (jmul (jsub (.fin p.1) bnd.minX) scale) (.fin offX),
     jadd (jmul (jsub (.fin p.2) bnd.minY) scale) (.fin offY)))

/-- The `TestFile` class constructor from `src/loader.mjs`. The `name`
computation (`path.relative` against the fixtures root) is I/O over the
file's path and is abstracted as the `name` argument. When the raw
`points` field is absent the constructor throws: with `dedupe` it throws
inside `dedupePoints` (iterating `undefined`), otherwise inside the
unconditional `pointsExtent(points)` call; either way no record is
produced. No other field is validated. -/
def buildTestFile (raw : RawFixture) (name : List Char) (dedupe : Bool) :
    Except JsError TestFile :=
  match raw.points with
  | none => .error .typeError
  | some pts =>
      .ok ⟨if dedupe then dedupePoints pts else pts,
           raw.edges, raw.source, raw.error, name, pointsExtent pts⟩

/-- `loadFile` from `src/loader.mjs`. Reading and parsing the file is I/O;
the argument is the parse result, `none` standing for text that
`JSON.parse` rejects (a thrown `SyntaxError`). -/
def loadFile (parsed : Option RawFixture) (name : List Char) (dedupe : Bool) :
    Except JsError TestFile :=
  match parsed with
  | none => .error .syntaxError
  | some raw => buildTestFile raw name dedupe

/-- JavaScript truthiness of the `error` field: `null`/`undefined` and the
empty string are falsy, every other string is truthy. -/
def jsTruthy : Option String → Bool
  | none => false
  | some s => !s.isEmpty

/-- The filtering step of `loadTests` from `src/loader.mjs`:
`ret.filter(test => allowErrors ? true : !test.error)`. The walk of the
fixtures directory and the per-file loads are I/O and are abstracted as the
`catalog` argument, the list of records built from the walked files. -/
def loadTests (allowErrors : Bool) (catalog : List TestFile) : List TestFile :=
  catalog.filter (fun t => if allowErrors then true else !(jsTruthy t.error))

/-- `findTest` from `src/loader.mjs`: `tests.find(t => t.name.includes(name))`.
`String.prototype.includes` is contiguous-substring containment. -/
def findTest (tests : List TestFile) (name : List Char) : Option TestFile :=
  tests.find? (fun t => decide (name <:+: t.name))

end Loader

namespace Part000

/-- The loop of `dedupePoints` in the unnamed second copy of the module.
Identical to the first copy; the copy's extra `console.log` of the
duplicate count is output-only and has no bearing on the returned value. -/
def dedupeGo : List (ℚ × ℚ) → List (ℚ × ℚ) → List (ℚ × ℚ)
  | [], _ => []
  | p :: rest, seen =>
      if p ∈ seen then dedupeGo rest seen else p :: dedupeGo rest (p :: seen)

/-- `dedupePoints` from the unnamed second copy. -/
def dedupePoints (points : List (ℚ × ℚ)) : List (ℚ × ℚ) :=
  dedupeGo points []

/-- One iteration of the `pointsExtent` loop in the second copy. -/
def extentStep (e : Extent) (p : ℚ × ℚ) : Extent :=
  ⟨jmin e.minX (.fin p.1), jmin e.minY (.fin p.2),
   jmax e.maxX (.fin p.1), jmax e.maxY (.fin p.2)⟩

/-- `pointsExtent` from the unnamed second copy. -/
def pointsExtent (points : List (ℚ × ℚ)) : Extent :=
  points.foldl extentStep ⟨.inf, .inf, .ninf, .ninf⟩

/-- `scalePoints` from the unnamed second copy. -/
def scalePoints (points : List (ℚ × ℚ)) (width height offX offY : ℚ) :
    List (JVal × JVal) :=
  let bnd := pointsExtent points
  let curWidth := jsub bnd.maxX bnd.minX
  let curHeight := jsub bnd.maxY bnd.minY
  let scaleX := jdiv (.fin width) curWidth
  let scaleY := jdiv (.fin height) curHeight
  let scale := jmin scaleX scaleY
  points.map (fun p =>
    (jadd (jmul (jsub (.fin p.1) bnd.minX) scale) (.fin offX),
     jadd (jmul (jsub (.fin p.2) bnd.minY) scale) (.fin offY)))

/-- The `Test` class constructor from the unnamed second copy; the body is
identical to the `TestFile` constructor of the first copy. -/
def buildTest (raw : RawFixture) (name : List Char) (dedupe : Bool) :
    Except JsError TestFile :=
  match raw.points with
  | none => .error .typeError
  | some pts =>
      .ok ⟨if dedupe then dedupePoints pts else pts,
           raw.edges, raw.source, raw.error, name, pointsExtent pts⟩

end Part000

/-- The extent of a non-empty point list as exact rationals; proof
scaffolding relating `Loader.pointsExtent` on `hd :: tl` to a fold over
`ℚ` (see `pointsExtent_cons`). -/
structure ExtentQ where
  minX : ℚ
  minY : ℚ
  maxX : ℚ
  maxY : ℚ
deriving DecidableEq, Repr

/-- The rational-valued min/max update step corresponding to
`Loader.extentStep` once all four accumulator fields are finite. -/
def stepQ (e : ExtentQ) (p : ℚ × ℚ) : ExtentQ :=
  ⟨min e.minX p.1, min e.minY p.2, max e.maxX p.1, max e.maxY p.2⟩

/-- Rational-valued extent of the non-empty list `hd :: tl`. -/
def pointsExtentQ (hd : ℚ × ℚ) (tl : List (ℚ × ℚ)) : ExtentQ :=
  tl.foldl stepQ ⟨hd.1, hd.2, hd.1, hd.2⟩

/-- Position of the first occurrence of `x` in `P` (the length of `P` when
`x` does not occur); used to state that `dedupePoints` keeps first
occurrences in order. -/
def firstIdx (P : List (ℚ × ℚ)) (x : ℚ × ℚ) : ℕ :=
  match P with
  | [] => 0
  | p :: rest => if p = x then 0 else firstIdx rest x + 1

@[simp]
theorem jmin_inf_fin (a : ℚ) : jmin .inf (.fin a) = .fin a := rfl

@[simp]
theorem jmax_ninf_fin (a : ℚ) : jmax .ninf (.fin a) = .fin a := rfl

@[simp]
theorem jmin_fin_fin (a b : ℚ) : jmin (.fin a) (.fin b) = .fin (min a b) := rfl

@[simp]
theorem jmax_fin_fin (a b : ℚ) : jmax (.fin a) (.fin b) = .fin (max a b) := rfl

@[simp]
theorem jsub_fin_fin (a b : ℚ) : jsub (.fin a) (.fin b) = .fin (a - b) := rfl

@[simp]
theorem jadd_fin_fin (a b : ℚ) : jadd (.fin a) (.fin b) = .fin (a + b) := rfl

@[simp]
theorem jmul_fin_fin (a b : ℚ) : jmul (.fin a) (.fin b) = .fin (a * b) := rfl

theorem jdiv_fin_fin (a b : ℚ) (hb : b ≠ 0) :
    jdiv (.fin a) (.fin b) = .fin (a / b) := by
  show (if b = 0 then (if a = 0 then JVal.nan else if 0 < a then .inf else .ninf)
        else .fin (a / b)) = .fin (a / b)
  rw [if_neg hb]

theorem extentStep_fin (a b c d : ℚ) (p : ℚ × ℚ) :
    Loader.extentStep ⟨.fin a, .fin b, .fin c, .fin d⟩ p =
      ⟨.fin (min a p.1), .fin (min b p.2), .fin (max c p.1), .fin (max d p.2)⟩ := rfl

/-- Once the accumulator is finite, the `JVal` extent fold computes the
rational extent fold, field by field. -/
theorem foldl_extentStep_fin (tl : List (ℚ × ℚ)) :
    ∀ a b c d : ℚ,
      tl.foldl Loader.extentStep ⟨.fin a, .fin b, .fin c, .fin d⟩ =
        ⟨.fin (tl.foldl stepQ ⟨a, b, c, d⟩).minX,
         .fin (tl.foldl stepQ ⟨a, b, c, d⟩).minY,
         .fin (tl.foldl stepQ ⟨a, b, c, d⟩).maxX,
         .fin (tl.foldl stepQ ⟨a, b, c, d⟩).maxY⟩ := by
  induction tl with
  | nil => intro a b c d; rfl
  | cons p tl ih =>
      intro a b c d
      rw [List.foldl_cons, List.foldl_cons, extentStep_fin]
      exact ih (min a p.1) (min b p.2) (max c p.1) (max d p.2)

/-- `pointsExtent` on a non-empty list is the finite rational extent. -/
theorem pointsExtent_cons (hd : ℚ × ℚ) (tl : List (ℚ × ℚ)) :
    Loader.pointsExtent (hd :: tl) =
      ⟨.fin (pointsExtentQ hd tl).minX, .fin (pointsExtentQ hd tl).minY,
       .fin (pointsExtentQ hd tl).maxX, .fin (pointsExtentQ hd tl).maxY⟩ := by
  show (hd :: tl).foldl Loader.extentStep ⟨.inf, .inf, .ninf, .ninf⟩ = _
  rw [List.foldl_cons]
  have h1 : Loader.extentStep ⟨.inf, .inf, .ninf, .ninf⟩ hd =
      ⟨.fin hd.1, .fin hd.2, .fin hd.1, .fin hd.2⟩ := rfl
  rw [h1, foldl_extentStep_fin]
  rfl

/-- C7: `pointsExtent` applied to the empty point sequence returns the
sentinel extent with `minX = minY = +Infinity` and `maxX = maxY = -Infinity`
(and, being a total function of the embedding, raises no error). -/
theorem pointsExtent_empty :
    Loader.pointsExtent [] = ⟨.inf, .inf, .ninf, .ninf⟩ := rfl

/-- The two copies of the dedupe loop agree on every input. -/
theorem dedupeGo_copies_eq (l : List (ℚ × ℚ)) :
    ∀ seen : List (ℚ × ℚ), Loader.dedupeGo l seen = Part000.dedupeGo l seen := by
  induction l with
  | nil => intro seen; rfl
  | cons p rest ih =>
      intro seen
      show (if p ∈ seen then Loader.dedupeGo rest seen
            else p :: Loader.dedupeGo rest (p :: seen)) = _
      rw [Part000.dedupeGo]
      by_cases hp : p ∈ seen
      · rw [if_pos hp, if_pos hp, ih]
      · rw [if_neg hp, if_neg hp, ih]

/-- The two copies of `dedupePoints` agree on every input. -/
theorem dedupePoints_copies_eq : Loader.dedupePoints = Part000.dedupePoints := by
  funext points
  exact dedupeGo_copies_eq points []

/-- C10: the two module copies are behaviorally equivalent: `dedupePoints`,
`pointsExtent` and `scalePoints` of the first copy (`src/loader.mjs`) are
equal as functions to those of the second copy, and the `TestFile` class
constructor of the first copy builds exactly the same record (all fields:
`points`, `edges`, `source`, `error`, `name`, `extent`) as the `Test` class
constructor of the second copy on every raw fixture, name and dedupe flag;
the copies differ only in the second copy's diagnostic `console.log`, which
produces no value. -/
theorem copies_equivalent :
    Loader.dedupePoints = Part000.dedupePoints ∧
    Loader.pointsExtent = Part000.pointsExtent ∧
    Loader.scalePoints = Part000.scalePoints ∧
    Loader.buildTestFile = Part000.buildTest := by
  refine ⟨dedupePoints_copies_eq, rfl, rfl, ?_⟩
  funext raw name dedupe
  show (match raw.points with
        | none => .error .typeError
        | some pts =>
            .ok ⟨if dedupe then Loader.dedupePoints pts else pts,
                 raw.edges, raw.source, raw.error, name, Loader.pointsExtent pts⟩) =
       Part000.buildTest raw name dedupe
  rw [Part000.buildTest, dedupePoints_copies_eq,
      show Loader.pointsExtent = Part000.pointsExtent from rfl]

/-- C2 (code evaluation at the failing input): a syntactically valid fixture
that is missing the required `edges` field is NOT rejected — the constructor
succeeds and produces a record whose `edges` field is absent, contradicting
the declared record interface. (The other half of the claim does hold in the
embedding: syntactically invalid JSON and a missing `points` field abort the
load with an exception, and present fixtures default `source`/`error` to
null; see the conjuncts.) -/
theorem loadFile_missing_edges_not_rejected :
    Loader.loadFile (some ⟨some [((0 : ℚ), (0 : ℚ))], none, none, none⟩) [] false
        = .ok ⟨[((0 : ℚ), (0 : ℚ))], none, none, none, [],
               ⟨.fin 0, .fin 0, .fin 0, .fin 0⟩⟩ ∧
    Loader.loadFile none [] false = .error .syntaxError ∧
    Loader.loadFile (some ⟨none, some [(0, 1)], none, none⟩) [] false
        = .error .typeError := by
  refine ⟨?_, rfl, rfl⟩
  have h : Loader.pointsExtent [((0 : ℚ), (0 : ℚ))]
      = ⟨.fin 0, .fin 0, .fin 0, .fin 0⟩ := by
    show Loader.extentStep ⟨.inf, .inf, .ninf, .ninf⟩ ((0 : ℚ), (0 : ℚ)) = _
    rw [show Loader.extentStep ⟨.inf, .inf, .ninf, .ninf⟩ ((0 : ℚ), (0 : ℚ))
          = ⟨.fin (min 0 0), .fin (min 0 0), .fin (max 0 0), .fin (max 0 0)⟩ from rfl,
        min_self, max_self]
  show Loader.buildTestFile ⟨some [((0 : ℚ), (0 : ℚ))], none, none, none⟩ [] false = _
  rw [Loader.buildTestFile]
  simp only [h]
  rfl

/-- A minimal record used to instantiate catalog-level theorems. -/
def sampleRecord (err : Option String) : TestFile :=
  ⟨[], none, none, err, ['a', 'b'], ⟨.inf, .inf, .ninf, .ninf⟩⟩

/-- C1 counterexample: a record whose `error` field is the empty string — a
non-null string — is NOT excluded by `loadTests` with `allowErrors = false`:
the JS filter `!test.error` treats the empty string as falsy, so the record
is returned even though its `error` field is non-null. -/
theorem loadTests_keeps_empty_string_error :
    Loader.loadTests false [sampleRecord (some "")] = [sampleRecord (some "")] ∧
    (sampleRecord (some "")).error ≠ none := by
  refine ⟨rfl, ?_⟩
  intro h
  exact Option.noConfusion h

/-- The JS truthiness test on the `error` field is false exactly for a null
or empty-string error. -/
theorem jsTruthy_eq_false_iff (e : Option String) :
    (!(Loader.jsTruthy e)) = true ↔ (e = none ∨ e = some "") := by
  cases e with
  | none => simp [Loader.jsTruthy]
  | some s =>
      simp only [Loader.jsTruthy, Bool.not_not, Option.some.injEq, false_or]
      rw [String.isEmpty_iff]
      simp

/-- C1 (amended): `loadTests` with `allowErrors = true` returns every record
built from the walked files; with `allowErrors = false` it returns exactly
the records whose `error` field is null or the empty string, i.e. it
excludes precisely the records whose `error` is a non-null, non-empty
string (JS truthiness of `!test.error`), not every record with a non-null
`error`. -/
theorem loadTests_filter_spec (catalog : List TestFile) :
    Loader.loadTests true catalog = catalog ∧
    (∀ t, t ∈ Loader.loadTests false catalog ↔
      t ∈ catalog ∧ (t.error = none ∨ t.error = some "")) := by
  constructor
  · have h : (fun t : TestFile => if true then true else !(Loader.jsTruthy t.error))
        = fun _ => true := rfl
    rw [Loader.loadTests, h, List.filter_true]
  · intro t
    rw [Loader.loadTests, List.mem_filter]
    have h : (if true = true then true else !(Loader.jsTruthy t.error))
        = (if True then true else !(Loader.jsTruthy t.error)) := by simp
    constructor
    · rintro ⟨ht, hf⟩
      refine ⟨ht, (jsTruthy_eq_false_iff t.error).mp ?_⟩
      simpa using hf
    · rintro ⟨ht, he⟩
      refine ⟨ht, ?_⟩
      simpa using (jsTruthy_eq_false_iff t.error).mpr he

/-- Witness for C1: the amended statement applied to a concrete catalog. -/
theorem loadTests_filter_spec_witness :
    Loader.loadTests true [sampleRecord none] = [sampleRecord none] ∧
    (∀ t, t ∈ Loader.loadTests false [sampleRecord none] ↔
      t ∈ [sampleRecord none] ∧ (t.error = none ∨ t.error = some "")) :=
  loadTests_filter_spec [sampleRecord none]

/-- Evaluation of the constructor on a raw fixture whose `points` field is
present. -/
theorem buildTestFile_some (pts : List (ℚ × ℚ)) (e : Option (List (ℕ × ℕ)))
    (src err : Option String) (nm : List Char) (d : Bool) :
    Loader.buildTestFile ⟨some pts, e, src, err⟩ nm d =
      .ok ⟨if d then Loader.dedupePoints pts else pts, e, src, err, nm,
           Loader.pointsExtent pts⟩ := rfl

/-- C3: for every raw fixture (with `points` present, else no record is
constructed at all) and every value of the dedupe flag, the constructed
record's `extent` is `pointsExtent` of the original, un-deduplicated points,
and its `edges` are the raw edges unchanged (no index remapping); hence the
records built with `dedupe = true` and `dedupe = false` from the same raw
fixture have equal `extent` and equal `edges` (and equal `source`, `error`
and `name`), differing at most in `points`. -/
theorem buildTestFile_extent_edges_invariant
    (pts : List (ℚ × ℚ)) (e : Option (List (ℕ × ℕ))) (src err : Option String)
    (nm : List Char) (t₁ t₂ : TestFile)
    (h₁ : Loader.buildTestFile ⟨some pts, e, src, err⟩ nm true = .ok t₁)
    (h₂ : Loader.buildTestFile ⟨some pts, e, src, err⟩ nm false = .ok t₂) :
    t₁.extent = Loader.pointsExtent pts ∧ t₂.extent = Loader.pointsExtent pts ∧
    t₁.edges = e ∧ t₂.edges = e ∧
    t₁.extent = t₂.extent ∧ t₁.edges = t₂.edges ∧ t₁.source = t₂.source ∧
    t₁.error = t₂.error ∧ t₁.name = t₂.name := by
  rw [buildTestFile_some] at h₁ h₂
  injection h₁ with h₁
  injection h₂ with h₂
  subst h₁
  subst h₂
  exact ⟨rfl, rfl, rfl, rfl, rfl, rfl, rfl, rfl, rfl⟩

/-- The record built from the duplicate-point fixture with `dedupe = true`. -/
def wrecDeduped : TestFile :=
  ⟨Loader.dedupePoints [((0 : ℚ), (0 : ℚ)), ((0 : ℚ), (0 : ℚ))], some [(0, 1)],
   none, none, [], Loader.pointsExtent [((0 : ℚ), (0 : ℚ)), ((0 : ℚ), (0 : ℚ))]⟩

/-- The record built from the duplicate-point fixture with `dedupe = false`. -/
def wrecPlain : TestFile :=
  ⟨[((0 : ℚ), (0 : ℚ)), ((0 : ℚ), (0 : ℚ))], some [(0, 1)],
   none, none, [], Loader.pointsExtent [((0 : ℚ), (0 : ℚ)), ((0 : ℚ), (0 : ℚ))]⟩

/-- Witness for C3: the invariant at a concrete fixture with a duplicate
point. -/
theorem buildTestFile_extent_edges_invariant_witness :
    wrecDeduped.extent
        = Loader.pointsExtent [((0 : ℚ), (0 : ℚ)), ((0 : ℚ), (0 : ℚ))] ∧
    wrecPlain.extent
        = Loader.pointsExtent [((0 : ℚ), (0 : ℚ)), ((0 : ℚ), (0 : ℚ))] ∧
    wrecDeduped.edges = some [(0, 1)] ∧ wrecPlain.edges = some [(0, 1)] ∧
    wrecDeduped.extent = wrecPlain.extent ∧
    wrecDeduped.edges = wrecPlain.edges ∧
    wrecDeduped.source = wrecPlain.source ∧
    wrecDeduped.error = wrecPlain.error ∧ wrecDeduped.name = wrecPlain.name :=
  buildTestFile_extent_edges_invariant
    [((0 : ℚ), (0 : ℚ)), ((0 : ℚ), (0 : ℚ))] (some [(0, 1)]) none none []
    wrecDeduped wrecPlain rfl rfl

/-- `List.find?` returns the first element satisfying the predicate: the
returned element satisfies it and everything before it refutes it. -/
theorem find_first_spec {α : Type} (p : α → Bool) (l : List α) :
    ∀ t : α, l.find? p = some t →
      p t = true ∧ ∃ pre post, l = pre ++ t :: post ∧ ∀ u ∈ pre, p u = false := by
  induction l with
  | nil => intro t h; exact absurd h (by simp)
  | cons a l ih =>
      intro t h
      by_cases hpa : p a = true
      · rw [List.find?_cons_of_pos _ hpa] at h
        injection h with h
        subst h
        exact ⟨hpa, [], l, rfl, fun u hu => absurd hu (List.not_mem_nil u)⟩
      · rw [List.find?_cons_of_neg _ hpa] at h
        obtain ⟨hpt, pre, post, heq, hall⟩ := ih t h
        refine ⟨hpt, a :: pre, post, by rw [heq]; rfl, fun u hu => ?_⟩
        rcases List.mem_cons.mp hu with h | h
        · subst h; exact Bool.eq_false_iff.mpr hpa
        · exact hall u h

/-- C5: `findTest` returns the first record in sequence order whose `name`
contains the search string as a contiguous substring, and returns the
explicit not-found value `none` (modelling `undefined`, not an exception)
exactly when no record's name contains it. -/
theorem findTest_spec (tests : List TestFile) (s : List Char) :
    (∀ t, Loader.findTest tests s = some t →
      (s <:+: t.name) ∧ ∃ pre post, tests = pre ++ t :: post ∧
        ∀ u ∈ pre, ¬(s <:+: u.name)) ∧
    (Loader.findTest tests s = none ↔ ∀ t ∈ tests, ¬(s <:+: t.name)) := by
  constructor
  · intro t h
    obtain ⟨hpt, pre, post, heq, hall⟩ := find_first_spec _ tests t h
    refine ⟨of_decide_eq_true hpt, pre, post, heq, fun u hu => ?_⟩
    exact of_decide_eq_false (hall u hu)
  · rw [Loader.findTest, List.find?_eq_none]
    simp only [decide_eq_true_eq]

/-- Witness for C5: `findTest` at a one-record catalog whose name `"ab"`
contains the search string `"b"`. -/
theorem findTest_spec_witness :
    (['b'] <:+: (sampleRecord none).name) ∧
    ∃ pre post, [sampleRecord none] = pre ++ sampleRecord none :: post ∧
      ∀ u ∈ pre, ¬(['b'] <:+: u.name) :=
  (findTest_spec [sampleRecord none] ['b']).1 (sampleRecord none) (by decide)

/-- The dedupe loop returns a sublist of its input. -/
theorem dedupeGo_sublist (l : List (ℚ × ℚ)) :
    ∀ seen, (Loader.dedupeGo l seen).Sublist l := by
  induction l with
  | nil => intro seen; exact List.Sublist.refl []
  | cons p rest ih =>
      intro seen
      rw [Loader.dedupeGo]
      by_cases hp : p ∈ seen
      · rw [if_pos hp]; exact (ih seen).cons p
      · rw [if_neg hp]; exact (ih (p :: seen)).cons₂ p

/-- Membership in the dedupe loop output: an element is returned exactly
when it occurs in the remaining input and has not been seen. -/
theorem dedupeGo_mem (l : List (ℚ × ℚ)) :
    ∀ seen x, x ∈ Loader.dedupeGo l seen ↔ x ∈ l ∧ x ∉ seen := by
  induction l with
  | nil => intro seen x; simp [Loader.dedupeGo]
  | cons p rest ih =>
      intro seen x
      rw [Loader.dedupeGo]
      by_cases hp : p ∈ seen
      · rw [if_pos hp, ih]
        constructor
        · rintro ⟨hx, hns⟩
          exact ⟨List.mem_cons_of_mem _ hx, hns⟩
        · rintro ⟨hx, hns⟩
          rcases List.mem_cons.mp hx with hxp | hx
          · exact absurd (hxp ▸ hp) hns
          · exact ⟨hx, hns⟩
      · rw [if_neg hp, List.mem_cons, ih]
        by_cases hxp : x = p
        · subst hxp
          simp [hp]
        · simp only [hxp, false_or]
          constructor
          · rintro ⟨hx, hns⟩
            exact ⟨List.mem_cons_of_mem _ hx,
                   fun hc => hns (List.mem_cons_of_mem _ hc)⟩
          · rintro ⟨hx, hns⟩
            refine ⟨(List.mem_cons.mp hx).resolve_left hxp, fun hc => ?_⟩
            rcases List.mem_cons.mp hc with h | h
            · exact hxp h
            · exact hns h

/-- The dedupe loop output has no duplicates. -/
theorem dedupeGo_nodup (l : List (ℚ × ℚ)) :
    ∀ seen, (Loader.dedupeGo l seen).Nodup := by
  induction l with
  | nil => intro seen; simp [Loader.dedupeGo]
  | cons p rest ih =>
      intro seen
      rw [Loader.dedupeGo]
      by_cases hp : p ∈ seen
      · rw [if_pos hp]; exact ih seen
      · rw [if_neg hp]
        refine List.nodup_cons.mpr ⟨fun hc => ?_, ih (p :: seen)⟩
        exact ((dedupeGo_mem rest (p :: seen) p).mp hc).2 (List.mem_cons_self p seen)

/-- `firstIdx` at the head of a list. -/
theorem firstIdx_cons_self (p : ℚ × ℚ) (rest : List (ℚ × ℚ)) :
    firstIdx (p :: rest) p = 0 := by
  rw [firstIdx, if_pos rfl]

/-- `firstIdx` skips a head different from the sought element. -/
theorem firstIdx_cons_ne (p x : ℚ × ℚ) (rest : List (ℚ × ℚ)) (h : p ≠ x) :
    firstIdx (p :: rest) x = firstIdx rest x + 1 := by
  rw [firstIdx, if_neg h]

/-- The dedupe loop output is strictly sorted by position of first
occurrence in the input. -/
theorem dedupeGo_pairwise (l : List (ℚ × ℚ)) :
    ∀ seen, List.Pairwise (fun a b => firstIdx l a < firstIdx l b)
      (Loader.dedupeGo l seen) := by
  induction l with
  | nil => intro seen; simp [Loader.dedupeGo]
  | cons p rest ih =>
      intro seen
      rw [Loader.dedupeGo]
      by_cases hp : p ∈ seen
      · rw [if_pos hp]
        refine List.Pairwise.imp_of_mem ?_ (ih seen)
        intro a b ha hb hab
        have hane : p ≠ a := fun h =>
          ((dedupeGo_mem rest seen a).mp ha).2 (h ▸ hp)
        have hbne : p ≠ b := fun h =>
          ((dedupeGo_mem rest seen b).mp hb).2 (h ▸ hp)
        rw [firstIdx_cons_ne p a rest hane, firstIdx_cons_ne p b rest hbne]
        exact Nat.succ_lt_succ hab
      · rw [if_neg hp]
        refine List.pairwise_cons.mpr ⟨fun b hb => ?_, ?_⟩
        · have hbne : p ≠ b := fun h =>
            ((dedupeGo_mem rest (p :: seen) b).mp hb).2
              (h ▸ List.mem_cons_self p seen)
          rw [firstIdx_cons_self, firstIdx_cons_ne p b rest hbne]
          exact Nat.succ_pos _
        · refine List.Pairwise.imp_of_mem ?_ (ih (p :: seen))
          intro a b ha hb hab
          have hane : p ≠ a := fun h =>
            ((dedupeGo_mem rest (p :: seen) a).mp ha).2
              (h ▸ List.mem_cons_self p seen)
          have hbne : p ≠ b := fun h =>
            ((dedupeGo_mem rest (p :: seen) b).mp hb).2
              (h ▸ List.mem_cons_self p seen)
          rw [firstIdx_cons_ne p a rest hane, firstIdx_cons_ne p b rest hbne]
          exact Nat.succ_lt_succ hab

/-- C8: `dedupePoints P` is a subsequence of `P` (retained points keep
their relative order), contains no two elements with equal coordinates,
retains exactly the coordinate pairs occurring in `P`, and lists them
strictly ordered by the position of their first occurrence in `P` — i.e.
the retained occurrence of each distinct coordinate pair is the first one.
(The embedding is purely functional, so the input list is not mutated by
construction.) -/
theorem dedupePoints_spec (P : List (ℚ × ℚ)) :
    (Loader.dedupePoints P).Sublist P ∧
    (Loader.dedupePoints P).Nodup ∧
    (∀ x, x ∈ Loader.dedupePoints P ↔ x ∈ P) ∧
    List.Pairwise (fun a b => firstIdx P a < firstIdx P b)
      (Loader.dedupePoints P) := by
  refine ⟨dedupeGo_sublist P [], dedupeGo_nodup P [], fun x => ?_,
          dedupeGo_pairwise P []⟩
  rw [Loader.dedupePoints, dedupeGo_mem]
  simp

/-- On an input without duplicates the dedupe loop is the identity. -/
theorem dedupeGo_of_nodup (l : List (ℚ × ℚ)) :
    ∀ seen, l.Nodup → (∀ x ∈ l, x ∉ seen) → Loader.dedupeGo l seen = l := by
  induction l with
  | nil => intro seen _ _; rfl
  | cons p rest ih =>
      intro seen hnd hdisj
      rw [Loader.dedupeGo, if_neg (hdisj p (List.mem_cons_self p rest))]
      congr 1
      refine ih (p :: seen) (List.nodup_cons.mp hnd).2 (fun x hx hc => ?_)
      rcases List.mem_cons.mp hc with h | h
      · exact (List.nodup_cons.mp hnd).1 (h ▸ hx)
      · exact hdisj x (List.mem_cons_of_mem _ hx) h

/-- C9: `dedupePoints` is idempotent. -/
theorem dedupePoints_idempotent (P : List (ℚ × ℚ)) :
    Loader.dedupePoints (Loader.dedupePoints P) = Loader.dedupePoints P :=
  dedupeGo_of_nodup _ [] (dedupeGo_nodup P []) (fun x _ => List.not_mem_nil x)

/-- Folding the rational extent step only shrinks the minima and grows the
maxima. -/
theorem foldl_stepQ_le (tl : List (ℚ × ℚ)) :
    ∀ e : ExtentQ,
      (tl.foldl stepQ e).minX ≤ e.minX ∧ (tl.foldl stepQ e).minY ≤ e.minY ∧
      e.maxX ≤ (tl.foldl stepQ e).maxX ∧ e.maxY ≤ (tl.foldl stepQ e).maxY := by
  induction tl with
  | nil => intro e; exact ⟨le_refl _, le_refl _, le_refl _, le_refl _⟩
  | cons p tl ih =>
      intro e
      rw [List.foldl_cons]
      obtain ⟨h1, h2, h3, h4⟩ := ih (stepQ e p)
      exact ⟨le_trans h1 (min_le_left _ _), le_trans h2 (min_le_left _ _),
             le_trans (le_max_left _ _) h3, le_trans (le_max_left _ _) h4⟩

/-- Every traversed point is inside the folded rational extent. -/
theorem foldl_stepQ_mem_le (tl : List (ℚ × ℚ)) :
    ∀ (e : ExtentQ), ∀ p ∈ tl,
      (tl.foldl stepQ e).minX ≤ p.1 ∧ (tl.foldl stepQ e).minY ≤ p.2 ∧
      p.1 ≤ (tl.foldl stepQ e).maxX ∧ p.2 ≤ (tl.foldl stepQ e).maxY := by
  induction tl with
  | nil => intro e p hp; exact absurd hp (List.not_mem_nil p)
  | cons q tl ih =>
      intro e p hp
      rw [List.foldl_cons]
      rcases List.mem_cons.mp hp with rfl | hp
      · obtain ⟨h1, h2, h3, h4⟩ := foldl_stepQ_le tl (stepQ e p)
        exact ⟨le_trans h1 (min_le_right _ _), le_trans h2 (min_le_right _ _),
               le_trans (le_max_right _ _) h3, le_trans (le_max_right _ _) h4⟩
      · exact ih (stepQ e q) p hp

/-- Each folded extent bound is either the initial bound or attained by a
traversed point. -/
theorem foldl_stepQ_attained (tl : List (ℚ × ℚ)) :
    ∀ e : ExtentQ,
      ((tl.foldl stepQ e).minX = e.minX ∨ ∃ p ∈ tl, (tl.foldl stepQ e).minX = p.1) ∧
      ((tl.foldl stepQ e).minY = e.minY ∨ ∃ p ∈ tl, (tl.foldl stepQ e).minY = p.2) ∧
      ((tl.foldl stepQ e).maxX = e.maxX ∨ ∃ p ∈ tl, (tl.foldl stepQ e).maxX = p.1) ∧
      ((tl.foldl stepQ e).maxY = e.maxY ∨ ∃ p ∈ tl, (tl.foldl stepQ e).maxY = p.2) := by
  induction tl with
  | nil => intro e; exact ⟨Or.inl rfl, Or.inl rfl, Or.inl rfl, Or.inl rfl⟩
  | cons q tl ih =>
      intro e
      rw [List.foldl_cons]
      obtain ⟨h1, h2, h3, h4⟩ := ih (stepQ e q)
      refine ⟨?_, ?_, ?_, ?_⟩
      · rcases h1 with h | ⟨p, hp, h⟩
        · rcases min_choice e.minX q.1 with hm | hm
          · exact Or.inl (h.trans hm)
          · exact Or.inr ⟨q, List.mem_cons_self q tl, h.trans hm⟩
        · exact Or.inr ⟨p, List.mem_cons_of_mem q hp, h⟩
      · rcases h2 with h | ⟨p, hp, h⟩
        · rcases min_choice e.minY q.2 with hm | hm
          · exact Or.inl (h.trans hm)
          · exact Or.inr ⟨q, List.mem_cons_self q tl, h.trans hm⟩
        · exact Or.inr ⟨p, List.mem_cons_of_mem q hp, h⟩
      · rcases h3 with h | ⟨p, hp, h⟩
        · rcases max_choice e.maxX q.1 with hm | hm
          · exact Or.inl (h.trans hm)
          · exact Or.inr ⟨q, List.mem_cons_self q tl, h.trans hm⟩
        · exact Or.inr ⟨p, List.mem_cons_of_mem q hp, h⟩
      · rcases h4 with h | ⟨p, hp, h⟩
        · rcases max_choice e.maxY q.2 with hm | hm
          · exact Or.inl (h.trans hm)
          · exact Or.inr ⟨q, List.mem_cons_self q tl, h.trans hm⟩
        · exact Or.inr ⟨p, List.mem_cons_of_mem q hp, h⟩

/-- C6: on a non-empty point sequence, `pointsExtent` returns four finite
bounds with `minX`/`minY` below every coordinate and `maxX`/`maxY` above
every coordinate, each bound being attained by at least one point. -/
theorem pointsExtent_bounds (hd : ℚ × ℚ) (tl : List (ℚ × ℚ)) :
    ∃ a b c d : ℚ,
      Loader.pointsExtent (hd :: tl) = ⟨.fin a, .fin b, .fin c, .fin d⟩ ∧
      (∀ p ∈ hd :: tl, a ≤ p.1 ∧ b ≤ p.2 ∧ p.1 ≤ c ∧ p.2 ≤ d) ∧
      (∃ p ∈ hd :: tl, p.1 = a) ∧ (∃ p ∈ hd :: tl, p.2 = b) ∧
      (∃ p ∈ hd :: tl, p.1 = c) ∧ (∃ p ∈ hd :: tl, p.2 = d) := by
  refine ⟨(pointsExtentQ hd tl).minX, (pointsExtentQ hd tl).minY,
          (pointsExtentQ hd tl).maxX, (pointsExtentQ hd tl).maxY,
          pointsExtent_cons hd tl, ?_, ?_, ?_, ?_, ?_⟩
  · intro p hp
    rcases List.mem_cons.mp hp with rfl | hp
    · exact foldl_stepQ_le tl ⟨p.1, p.2, p.1, p.2⟩
    · exact foldl_stepQ_mem_le tl ⟨hd.1, hd.2, hd.1, hd.2⟩ p hp
  · obtain ⟨h, _, _, _⟩ := foldl_stepQ_attained tl ⟨hd.1, hd.2, hd.1, hd.2⟩
    rcases h with h | ⟨p, hp, h⟩
    · exact ⟨hd, List.mem_cons_self hd tl, h.symm⟩
    · exact ⟨p, List.mem_cons_of_mem hd hp, h.symm⟩
  · obtain ⟨_, h, _, _⟩ := foldl_stepQ_attained tl ⟨hd.1, hd.2, hd.1, hd.2⟩
    rcases h with h | ⟨p, hp, h⟩
    · exact ⟨hd, List.mem_cons_self hd tl, h.symm⟩
    · exact ⟨p, List.mem_cons_of_mem hd hp, h.symm⟩
  · obtain ⟨_, _, h, _⟩ := foldl_stepQ_attained tl ⟨hd.1, hd.2, hd.1, hd.2⟩
    rcases h with h | ⟨p, hp, h⟩
    · exact ⟨hd, List.mem_cons_self hd tl, h.symm⟩
    · exact ⟨p, List.mem_cons_of_mem hd hp, h.symm⟩
  · obtain ⟨_, _, _, h⟩ := foldl_stepQ_attained tl ⟨hd.1, hd.2, hd.1, hd.2⟩
    rcases h with h | ⟨p, hp, h⟩
    · exact ⟨hd, List.mem_cons_self hd tl, h.symm⟩
    · exact ⟨p, List.mem_cons_of_mem hd hp, h.symm⟩

/-- A nonnegatively scaled and shifted minimum. -/
theorem min_scale_shift (x y s m o : ℚ) (hs : 0 ≤ s) :
    min ((x - m) * s + o) ((y - m) * s + o) = (min x y - m) * s + o := by
  rcases le_total x y with hxy | hxy
  · rw [min_eq_left hxy]
    exact min_eq_left
      (add_le_add_right (mul_le_mul_of_nonneg_right (sub_le_sub_right hxy m) hs) o)
  · rw [min_eq_right hxy]
    exact min_eq_right
      (add_le_add_right (mul_le_mul_of_nonneg_right (sub_le_sub_right hxy m) hs) o)

/-- A nonnegatively scaled and shifted maximum. -/
theorem max_scale_shift (x y s m o : ℚ) (hs : 0 ≤ s) :
    max ((x - m) * s + o) ((y - m) * s + o) = (max x y - m) * s + o := by
  rcases le_total x y with hxy | hxy
  · rw [max_eq_right hxy]
    exact max_eq_right
      (add_le_add_right (mul_le_mul_of_nonneg_right (sub_le_sub_right hxy m) hs) o)
  · rw [max_eq_left hxy]
    exact max_eq_left
      (add_le_add_right (mul_le_mul_of_nonneg_right (sub_le_sub_right hxy m) hs) o)

/-- The rational extent fold commutes with a nonnegative uniform scale and
translation of all points. -/
theorem foldl_stepQ_scale (s mx my ox oy : ℚ) (hs : 0 ≤ s) :
    ∀ (tl : List (ℚ × ℚ)) (e : ExtentQ),
      (tl.map (fun p => ((p.1 - mx) * s + ox, (p.2 - my) * s + oy))).foldl stepQ
          ⟨(e.minX - mx) * s + ox, (e.minY - my) * s + oy,
           (e.maxX - mx) * s + ox, (e.maxY - my) * s + oy⟩
        = ⟨((tl.foldl stepQ e).minX - mx) * s + ox,
           ((tl.foldl stepQ e).minY - my) * s + oy,
           ((tl.foldl stepQ e).maxX - mx) * s + ox,
           ((tl.foldl stepQ e).maxY - my) * s + oy⟩ := by
  intro tl
  induction tl with
  | nil => intro e; rfl
  | cons q tl ih =>
      intro e
      rw [List.map_cons, List.foldl_cons, List.foldl_cons]
      have hstep : stepQ
          ⟨(e.minX - mx) * s + ox, (e.minY - my) * s + oy,
           (e.maxX - mx) * s + ox, (e.maxY - my) * s + oy⟩
          ((fun p => ((p.1 - mx) * s + ox, (p.2 - my) * s + oy)) q)
        = ⟨((stepQ e q).minX - mx) * s + ox, ((stepQ e q).minY - my) * s + oy,
           ((stepQ e q).maxX - mx) * s + ox, ((stepQ e q).maxY - my) * s + oy⟩ := by
        show (⟨min ((e.minX - mx) * s + ox) ((q.1 - mx) * s + ox),
               min ((e.minY - my) * s + oy) ((q.2 - my) * s + oy),
               max ((e.maxX - mx) * s + ox) ((q.1 - mx) * s + ox),
               max ((e.maxY - my) * s + oy) ((q.2 - my) * s + oy)⟩ : ExtentQ) = _
        rw [min_scale_shift e.minX q.1 s mx ox hs,
            min_scale_shift e.minY q.2 s my oy hs,
            max_scale_shift e.maxX q.1 s mx ox hs,
            max_scale_shift e.maxY q.2 s my oy hs]
        rfl
      rw [hstep]
      exact ih (stepQ e q)

/-- `pointsExtentQ` of a nonnegatively scaled and translated non-empty point
list is the scaled and translated extent. -/
theorem pointsExtentQ_scale (s mx my ox oy : ℚ) (hs : 0 ≤ s)
    (hd : ℚ × ℚ) (tl : List (ℚ × ℚ)) :
    pointsExtentQ ((hd.1 - mx) * s + ox, (hd.2 - my) * s + oy)
        (tl.map (fun p => ((p.1 - mx) * s + ox, (p.2 - my) * s + oy)))
      = ⟨((pointsExtentQ hd tl).minX - mx) * s + ox,
         ((pointsExtentQ hd tl).minY - my) * s + oy,
         ((pointsExtentQ hd tl).maxX - mx) * s + ox,
         ((pointsExtentQ hd tl).maxY - my) * s + oy⟩ :=
  foldl_stepQ_scale s mx my ox oy hs tl ⟨hd.1, hd.2, hd.1, hd.2⟩

/-- C4: on a non-empty point sequence whose extent `⟨mx, my, Mx, My⟩` has
positive width and positive height, and for a positive target box,
`scalePoints` applies the single uniform scale factor
`s = min (width / extent-width) (height / extent-height)` to every point
and translates so the extent's minimum corner `(mx, my)` maps to
`(offX, offY)`; consequently every output coordinate is finite, the output
extent is anchored at `(offX, offY)` and fits inside the
`width × height` box, and the output extent's width-to-height ratio equals
that of the input extent. -/
theorem scalePoints_spec (hd : ℚ × ℚ) (tl : List (ℚ × ℚ))
    (w h ox oy mx my Mx My : ℚ)
    (hE : pointsExtentQ hd tl = ⟨mx, my, Mx, My⟩)
    (hw : 0 < w) (hh : 0 < h) (hew : 0 < Mx - mx) (heh : 0 < My - my) :
    ∃ s : ℚ, s = min (w / (Mx - mx)) (h / (My - my)) ∧
      Loader.scalePoints (hd :: tl) w h ox oy
        = (hd :: tl).map (fun p => (JVal.fin ((p.1 - mx) * s + ox),
                                    JVal.fin ((p.2 - my) * s + oy))) ∧
      Loader.pointsExtent
          ((hd :: tl).map (fun p => ((p.1 - mx) * s + ox, (p.2 - my) * s + oy)))
        = ⟨.fin ox, .fin oy, .fin ((Mx - mx) * s + ox), .fin ((My - my) * s + oy)⟩ ∧
      (Mx - mx) * s ≤ w ∧ (My - my) * s ≤ h ∧
      ((Mx - mx) * s) / ((My - my) * s) = (Mx - mx) / (My - my) := by
  have hewne : Mx - mx ≠ 0 := ne_of_gt hew
  have hehne : My - my ≠ 0 := ne_of_gt heh
  have hspos : 0 < min (w / (Mx - mx)) (h / (My - my)) :=
    lt_min (div_pos hw hew) (div_pos hh heh)
  refine ⟨min (w / (Mx - mx)) (h / (My - my)), rfl, ?_, ?_, ?_, ?_, ?_⟩
  · simp only [Loader.scalePoints, pointsExtent_cons, hE,
      jsub_fin_fin, jdiv_fin_fin w (Mx - mx) hewne, jdiv_fin_fin h (My - my) hehne,
      jmin_fin_fin, jmul_fin_fin, jadd_fin_fin]
  · rw [List.map_cons, pointsExtent_cons]
    have h2 := pointsExtentQ_scale (min (w / (Mx - mx)) (h / (My - my)))
      mx my ox oy (le_of_lt hspos) hd tl
    rw [hE] at h2
    dsimp only [] at h2 ⊢
    rw [h2]
    simp only [sub_self, zero_mul, zero_add]
  · have hcancel : (Mx - mx) * (w / (Mx - mx)) = w := by
      rw [mul_comm, div_mul_cancel₀ w hewne]
    exact le_trans
      (mul_le_mul_of_nonneg_left (min_le_left _ _) (le_of_lt hew))
      (le_of_eq hcancel)
  · have hcancel : (My - my) * (h / (My - my)) = h := by
      rw [mul_comm, div_mul_cancel₀ h hehne]
    exact le_trans
      (mul_le_mul_of_nonneg_left (min_le_right _ _) (le_of_lt heh))
      (le_of_eq hcancel)
  · exact mul_div_mul_right _ _ (ne_of_gt hspos)

/-- Witness for C4: the scale-to-fit property at a concrete two-point
sequence with extent `⟨0, 0, 2, 1⟩` mapped into a `4 × 1` box at `(5, 7)`. -/
theorem scalePoints_spec_witness :
    pointsExtentQ ((0 : ℚ), (0 : ℚ)) [((2 : ℚ), (1 : ℚ))]
        = ⟨0, 0, 2, 1⟩ ∧ (0 : ℚ) < 4 ∧ (0 : ℚ) < 1 ∧
    (0 : ℚ) < 2 - 0 ∧ (0 : ℚ) < 1 - 0 ∧
    (∃ s : ℚ, s = min (4 / ((2 : ℚ) - 0)) (1 / ((1 : ℚ) - 0)) ∧
      Loader.scalePoints [((0 : ℚ), (0 : ℚ)), ((2 : ℚ), (1 : ℚ))] 4 1 5 7
        = [((0 : ℚ), (0 : ℚ)), ((2 : ℚ), (1 : ℚ))].map
            (fun p => (JVal.fin ((p.1 - 0) * s + 5), JVal.fin ((p.2 - 0) * s + 7))) ∧
      Loader.pointsExtent
          ([((0 : ℚ), (0 : ℚ)), ((2 : ℚ), (1 : ℚ))].map
            (fun p => ((p.1 - 0) * s + 5, (p.2 - 0) * s + 7)))
        = ⟨.fin 5, .fin 7, .fin ((2 - 0) * s + 5), .fin ((1 - 0) * s + 7)⟩ ∧
      ((2 : ℚ) - 0) * s ≤ 4 ∧ ((1 : ℚ) - 0) * s ≤ 1 ∧
      (((2 : ℚ) - 0) * s) / (((1 : ℚ) - 0) * s) = ((2 : ℚ) - 0) / ((1 : ℚ) - 0)) :=
  ⟨by decide, by norm_num, by norm_num, by norm_num, by norm_num,
   scalePoints_spec ((0 : ℚ), (0 : ℚ)) [((2 : ℚ), (1 : ℚ))] 4 1 5 7 0 0 2 1
     (by decide) (by norm_num) (by norm_num) (by norm_num) (by norm_num)⟩
